import Mathlib

/-!
Verification development for the terminal shell-integration layer
(`extHostTerminalShellIntegration.ts`).

The TypeScript source is shallowly embedded as executable Lean functions:

* strings are `String` (a JS string is its character sequence);
* a `URI` is represented by its `toString()` rendering, so a stored
  `cwd : URI | undefined` becomes `Option String`;
* JS object references to `ShellExecutionDataStream` instances are modelled
  by indices into an explicit stream store (`Heap`), so tearing down a
  reference (`this._dataStream = undefined`) does not destroy the stream
  object still held by attached consumers;
* the single-threaded event loop with explicit suspension points is modelled
  by a small-step relation: the synchronous body of each handler is one
  step, and the continuation passed to `flush().then(...)` becomes a
  pending `Drain` record that a later `resumeDrain` step may run;
* events fired on the emitters are accumulated in an observation log,
  in firing order.
-/

/-- Translation of `TerminalShellExecutionCommandLineConfidence` from `extHostTypes`. -/
inductive Confidence where
  | low
  | medium
  | high
deriving DecidableEq, Repr

/-- Translation of `vscode.TerminalShellExecutionCommandLine`. -/
structure CommandLine where
  value : String
  confidence : Confidence
  isTrusted : Bool
deriving DecidableEq, Repr

/-- One attached consumer of a `ShellExecutionDataStream`: the
`AsyncIterableEmitter` pushed by `createIterable`'s executor together with the
consumer-side progress through the produced sequence.  `delivered` is the list
of chunks `emitOne` has forwarded to this emitter, `consumed` is how many of
them the consuming loop has taken so far, `released` records whether the
barrier this iterable's executor awaits has been opened, and `observedDone`
records whether the consumer has observed the termination of its sequence. -/
structure Reader where
  delivered : List String
  consumed : Nat
  released : Bool
  observedDone : Bool
deriving DecidableEq, Repr

/-- A fresh reader as registered by `createIterable`. -/
def Reader.init : Reader := ⟨[], 0, false, false⟩

instance : Inhabited Reader := ⟨Reader.init⟩

/-- Translation of `ShellExecutionDataStream`: `barrier` says whether a (still closed)
`Barrier` object currently exists (`_barrier !== undefined`), `readers` are the
attached iterables/emitters in attachment order. -/
structure DataStream where
  barrier : Bool
  readers : List Reader
deriving DecidableEq, Repr

instance : Inhabited DataStream := ⟨⟨false, []⟩⟩

/-- Translation of `ShellExecutionDataStream.createIterable`: lazily create the barrier, then
register a new emitter whose executor awaits that barrier.  Returns the index
of the new reader. -/
def DataStream.createIterable (s : DataStream) : DataStream × Nat :=
  let s1 := if s.barrier then s else { s with barrier := true }
  ({ s1 with readers := s1.readers ++ [Reader.init] }, s1.readers.length)

/-- Translation of `ShellExecutionDataStream.emitData`: `emitter.emitOne(data)` for every
attached emitter, in attachment order. -/
def DataStream.emitData (d : String) (s : DataStream) : DataStream :=
  { s with readers := s.readers.map fun r => { r with delivered := r.delivered ++ [d] } }

/-- Translation of `ShellExecutionDataStream.endExecution`: `this._barrier?.open()` releases
every reader waiting on the current barrier (readers attached before an
earlier close were already released), then `this._barrier = undefined`. -/
def DataStream.close (s : DataStream) : DataStream :=
  { barrier := false, readers := s.readers.map fun r => { r with released := true } }

/-- Consumer-side step: the loop driving reader `r` takes the next buffered
chunk, when one is available. -/
def DataStream.consume (r : Nat) (s : DataStream) : DataStream :=
  match s.readers[r]? with
  | none => s
  | some rd =>
      if rd.consumed < rd.delivered.length then
        { s with readers := s.readers.set r { rd with consumed := rd.consumed + 1 } }
      else s

/-- Consumer-side step: the loop driving reader `r` observes end-of-sequence,
possible once the producer finished (barrier released) and every buffered
chunk was consumed. -/
def DataStream.observeDone (r : Nat) (s : DataStream) : DataStream :=
  match s.readers[r]? with
  | none => s
  | some rd =>
      if rd.released && (rd.consumed == rd.delivered.length) then
        { s with readers := s.readers.set r { rd with observedDone := true } }
      else s

/-! ### Producer-side stream traces (for the multiplexer claims) -/

/-- A producer-side operation on a `ShellExecutionDataStream`. -/
inductive StreamOp where
  | attach
  | push (data : String)
  | close
deriving DecidableEq, Repr

/-- Apply one producer-side operation. -/
def streamStep (s : DataStream) : StreamOp → DataStream
  | .attach => (s.createIterable).1
  | .push d => s.emitData d
  | .close => s.close

/-- Run a trace of producer-side operations on a fresh stream. -/
def runStream (ops : List StreamOp) : DataStream :=
  ops.foldl streamStep ⟨false, []⟩

/-- The chunks pushed by a trace, in order. -/
def pushesOf : List StreamOp → List String
  | [] => []
  | .push d :: rest => d :: pushesOf rest
  | .attach :: rest => pushesOf rest
  | .close :: rest => pushesOf rest

/-- The tail of a trace strictly after its `r`-th `attach` operation. -/
def afterAttach : Nat → List StreamOp → List StreamOp
  | _, [] => []
  | 0, .attach :: rest => rest
  | r + 1, .attach :: rest => afterAttach r rest
  | r, .push _ :: rest => afterAttach r rest
  | r, .close :: rest => afterAttach r rest

/-- Number of `attach` operations in a trace. -/
def attachCount : List StreamOp → Nat
  | [] => 0
  | .attach :: rest => attachCount rest + 1
  | .push _ :: rest => attachCount rest
  | .close :: rest => attachCount rest

/-! ### Execution records (`InternalTerminalShellExecution`) -/

/-- The stream store: the heap of `ShellExecutionDataStream` objects ever
allocated.  An execution holds an optional reference (index) into it; consumers
keep their reader registered in the store even after the owning execution drops
its reference. -/
abbrev Heap := List DataStream

/-- Translation of `InternalTerminalShellExecution`: the mutable command line, the immutable
cwd, the optional reference to the owned data stream, and the `_ended` flag. -/
structure ExecRecord where
  commandLine : CommandLine
  cwd : Option String
  dataStream : Option Nat
  ended : Bool
deriving DecidableEq, Repr

instance : Inhabited ExecRecord := ⟨⟨⟨"", .low, false⟩, none, none, false⟩⟩

/-- Translation of `_createDataStream` (the body of the public `read()`): if no stream
reference is held, return the empty iterable when already ended, otherwise
allocate a fresh stream; then attach a new iterable.  Returns the updated
execution and heap together with `some (streamId, readerIdx)` for an
attachment, or `none` for `AsyncIterableObject.EMPTY`. -/
def ExecRecord.createDataStream (e : ExecRecord) (h : Heap) :
    ExecRecord × Heap × Option (Nat × Nat) :=
  match e.dataStream with
  | some sid =>
      let s := (h.getD sid default).createIterable
      (e, h.set sid s.1, some (sid, s.2))
  | none =>
      if e.ended then
        (e, h, none)
      else
        let sid := h.length
        let s := (DataStream.mk false []).createIterable
        ({ e with dataStream := some sid }, h ++ [s.1], some (sid, s.2))

/-- The public `read()` of the execution's value object. -/
def ExecRecord.read (e : ExecRecord) (h : Heap) : ExecRecord × Heap × Option (Nat × Nat) :=
  e.createDataStream h

/-- Translation of `InternalTerminalShellExecution.emitData`: forward to the stream if the
reference is still held, else drop the chunk. -/
def ExecRecord.emitDataE (d : String) (e : ExecRecord) (h : Heap) : Heap :=
  match e.dataStream with
  | some sid => h.set sid ((h.getD sid default).emitData d)
  | none => h

/-- Translation of `InternalTerminalShellExecution.endExecution`: optionally replace the
stored command line, close the stream (`_dataStream?.endExecution()`), tear
down the stream reference and mark the execution ended. -/
def ExecRecord.endExecutionE (cl : Option CommandLine) (e : ExecRecord) (h : Heap) :
    ExecRecord × Heap :=
  let h1 :=
    match e.dataStream with
    | some sid => h.set sid (h.getD sid default).close
    | none => h
  ({ e with
      commandLine := cl.getD e.commandLine
      dataStream := none
      ended := true }, h1)

/-- The completion obligation captured by `InternalTerminalShellExecution.flush`
(`await this._dataStream?.flush()`): the `(streamId, readerIdx)` pairs of every
iterable attached to the currently referenced stream — `flush` of the stream
awaits the completion of all of its iterables — or nothing at all when the
stream reference has been torn down. -/
def ExecRecord.flushObligation (e : ExecRecord) (h : Heap) : List (Nat × Nat) :=
  match e.dataStream with
  | some sid => (List.range (h.getD sid default).readers.length).map fun r => (sid, r)
  | none => []

/-! ### Session state (`InternalTerminalShellIntegration`) -/

/-- The stored `env` snapshot (`vscode.TerminalShellIntegrationEnvironment`):
the zipped key/value mapping plus the trust flag.  JS object assignment
semantics: a later assignment to an existing key overwrites its value. -/
structure EnvSnapshot where
  value : List (String × Option String)
  isTrusted : Bool
deriving DecidableEq, Repr

/-- Overwrite-or-append assignment on the assoc-list representation of a JS
object. -/
def assocSet (k : String) (v : Option String) : List (String × Option String) →
    List (String × Option String)
  | [] => [(k, v)]
  | (k', v') :: rest => if k' = k then (k, v) :: rest else (k', v') :: assocSet k v rest

/-- The loop of `setEnv`: `env[keys[i]] = values[i]` for each index of `keys`
(`values[i]` is `undefined` past the end of `values`). -/
def envOf (keys values : List String) : List (String × Option String) :=
  (List.range keys.length).foldl (fun acc i => assocSet (keys.getD i "") values[i]? acc) []

/-- The mutable per-terminal state of `InternalTerminalShellIntegration`. -/
structure SessionState where
  activeExecutions : List Nat
  current : Option Nat
  env : Option EnvSnapshot
  cwd : Option String
  hasRichCommandDetection : Bool
deriving DecidableEq, Repr

def SessionState.init : SessionState := ⟨[], none, none, none, false⟩

/-- An observable event fired by the session on one of its emitters (or on the
shared start emitter), identified by the emitter and its payload.  Executions
are identified by their id in the execution store, which models JS object
identity. -/
inductive Event where
  | startEv (exec : Nat)
  | endEv (exec : Nat) (exitCode : Option Int)
  | changeEv
  | requestExec (cmd : String)
  | newExec (cmd : String)
deriving DecidableEq, Repr

/-- The suspended continuation of `currentExecution.flush().then(...)` inside
`endShellExecution`: the captured execution object, the exit code, and the
completion obligation captured when `flush()` dereferenced the stream. -/
structure Drain where
  exec : Nat
  exitCode : Option Int
  obligation : List (Nat × Nat)
deriving DecidableEq, Repr

/-- The whole per-terminal world: the store of execution objects ever created
(index = identity), the stream store, the session state, the pending drain
continuations and the log of fired events. -/
structure World where
  execs : List ExecRecord
  streams : Heap
  session : SessionState
  drains : List Drain
  events : List Event
deriving DecidableEq, Repr

def World.init : World := ⟨[], [], SessionState.init, [], []⟩

/-- Translation of `requestNewShellExecution`: allocate a new execution with the given command
line and `cwd ?? this._cwd`, push it onto `_activeExecutions`, fire
`_onDidRequestNewExecution`.  Returns the id of the new execution. -/
def requestNewShellExecutionW (cl : CommandLine) (cwd : Option String) (w : World) :
    World × Nat :=
  let id := w.execs.length
  let e : ExecRecord := ⟨cl, cwd.orElse fun _ => w.session.cwd, none, false⟩
  ({ w with
      execs := w.execs ++ [e]
      session := { w.session with activeExecutions := w.session.activeExecutions ++ [id] }
      events := w.events ++ [Event.newExec cl.value] }, id)

/-- The argument-formatting test of `executeCommand`:
`!arg.match(/["'`]/)` — none of double quote, single quote, backtick. -/
def isQuoteChar (c : Char) : Bool := c.val = 34 || c.val = 39 || c.val = 96

/-- The whitespace class of the JS regular expression `/\s/`. -/
def isJsWhitespace (c : Char) : Bool :=
  c.val = 9 || c.val = 10 || c.val = 11 || c.val = 12 || c.val = 13 || c.val = 32 ||
  c.val = 0xa0 || c.val = 0x1680 || (0x2000 ≤ c.val && c.val ≤ 0x200a) ||
  c.val = 0x2028 || c.val = 0x2029 || c.val = 0x202f || c.val = 0x205f ||
  c.val = 0x3000 || c.val = 0xfeff

/-- Translation of `const wrapInQuotes = !arg.match(/["'`]/) && arg.match(/\s/)`. -/
def wrapInQuotes (arg : String) : Bool :=
  !(arg.data.any isQuoteChar) && arg.data.any isJsWhitespace

/-- The command-line assembly loop of `executeCommand(commandLineOrExecutable,
args?)`: start from the executable and append each argument, quoted when
`wrapInQuotes` holds. -/
def buildCommandLine (exe : String) (args : Option (List String)) : String :=
  match args with
  | none => exe
  | some as =>
      as.foldl
        (fun acc arg =>
          if wrapInQuotes arg then acc ++ " \"" ++ arg ++ "\"" else acc ++ " " ++ arg)
        exe

/-- The public `executeCommand` of the shell integration value object: build
the command line, fire `_onDidRequestShellExecution`, then register the pending
execution with confidence `High` and `isTrusted: true` at the session's cwd. -/
def executeCommandW (exe : String) (args : Option (List String)) (w : World) : World × Nat :=
  let cmd := buildCommandLine exe args
  let w1 := { w with events := w.events ++ [Event.requestExec cmd] }
  requestNewShellExecutionW ⟨cmd, .high, true⟩ w1.session.cwd w1

/-- Translation of `endExecution` applied to execution `id` inside the world (used by both
`startShellExecution`'s force-end and `endShellExecution`). -/
def applyEndExecution (id : Nat) (cl : Option CommandLine) (w : World) : World :=
  match w.execs[id]? with
  | none => w
  | some e =>
      let r := e.endExecutionE cl w.streams
      { w with execs := w.execs.set id r.1, streams := r.2 }

/-- The correlation step of `startShellExecution`: with `High` confidence,
`findIndex` of the first pending execution whose current command-line text
equals the reported text, removed by `splice`; otherwise `shift()` the head
of the pending queue.  Returns the picked execution (if any) and the remaining
queue. -/
def pickExecution (execs : List ExecRecord) (cl : CommandLine) (active : List Nat) :
    Option Nat × List Nat :=
  if cl.confidence = Confidence.high then
    match active.findIdx? (fun id => (execs.getD id default).commandLine.value == cl.value) with
    | some i => (active[i]?, active.eraseIdx i)
    | none => (none, active)
  else
    (active.head?, active.tail)

/-- The opening of `startShellExecution`: when an execution is still current,
force-end it (`endExecution(undefined)`) and fire its end event with no exit
code. -/
def startForceEnd (w : World) : World :=
  match w.session.current with
  | none => w
  | some c =>
      let w' := applyEndExecution c none w
      { w' with events := w'.events ++ [Event.endEv c none] }

/-- The remainder of `startShellExecution`: pick (or synthesize) the execution
that becomes current, install it and fire the start event. -/
def startPick (cl : CommandLine) (cwd : Option String) (w1 : World) : World :=
  let s := w1.session
  let pr := pickExecution w1.execs cl s.activeExecutions
  match pr.1 with
  | some p =>
      { w1 with
          session := { s with activeExecutions := pr.2, current := some p }
          events := w1.events ++ [Event.startEv p] }
  | none =>
      let id := w1.execs.length
      let e : ExecRecord := ⟨cl, cwd.orElse fun _ => s.cwd, none, false⟩
      { w1 with
          execs := w1.execs ++ [e]
          session := { s with activeExecutions := pr.2, current := some id }
          events := w1.events ++ [Event.startEv id] }

/-- Translation of `startShellExecution(commandLine, cwd)`: force-end a still-current
execution (firing its end event with no exit code), then pick or synthesize
the execution that becomes current and fire the start event. -/
def startShellExecutionW (cl : CommandLine) (cwd : Option String) (w : World) : World :=
  startPick cl cwd (startForceEnd w)

/-- Translation of `InternalTerminalShellIntegration.emitData`: forward to the current
execution only; dropped when there is none. -/
def emitDataW (d : String) (w : World) : World :=
  match w.session.current with
  | none => w
  | some c =>
      match w.execs[c]? with
      | none => w
      | some e => { w with streams := e.emitDataE d w.streams }

/-- The synchronous body of `endShellExecution(commandLine, exitCode)`: when an
execution is current, end it, then call `flush()` on it — capturing the
completion obligation from the (already torn down) stream reference — and
suspend the `.then` continuation as a pending drain.  `currentExecution` is not
cleared here; the suspended continuation does that. -/
def endShellExecutionW (cl : Option CommandLine) (exitCode : Option Int) (w : World) :
    World :=
  match w.session.current with
  | none => w
  | some c =>
      let w1 := applyEndExecution c cl w
      let ob := (w1.execs.getD c default).flushObligation w1.streams
      { w1 with drains := w1.drains ++ [⟨c, exitCode, ob⟩] }

/-- A drain continuation may resume once every iterable in its captured
obligation has completed, i.e. its barrier has been released. -/
def drainSatisfied (w : World) (d : Drain) : Bool :=
  d.obligation.all fun p => (((w.streams.getD p.1 default).readers.getD p.2 default).released)

/-- Resume the `i`-th pending drain continuation (the event loop runs it once
its awaited promise settles): fire the end event and clear `currentExecution`
only if the captured execution is still the current one — otherwise a newer
`startShellExecution` already fired it. -/
def resumeDrainW (i : Nat) (w : World) : World :=
  match w.drains[i]? with
  | none => w
  | some d =>
      if drainSatisfied w d then
        let w1 := { w with drains := w.drains.eraseIdx i }
        if w1.session.current = some d.exec then
          { w1 with
              session := { w1.session with current := none }
              events := w1.events ++ [Event.endEv d.exec d.exitCode] }
        else w1
      else w

/-- A consumer calls `read()` on execution `c`'s value object. -/
def readAttachW (c : Nat) (w : World) : World :=
  match w.execs[c]? with
  | none => w
  | some e =>
      let r := e.createDataStream w.streams
      { w with execs := w.execs.set c r.1, streams := r.2.1 }

/-- Consumer-side step on stream `sid`, reader `r`: take one buffered chunk. -/
def consumeW (sid r : Nat) (w : World) : World :=
  { w with streams := w.streams.set sid ((w.streams.getD sid default).consume r) }

/-- Consumer-side step on stream `sid`, reader `r`: observe termination. -/
def observeDoneW (sid r : Nat) (w : World) : World :=
  { w with streams := w.streams.set sid ((w.streams.getD sid default).observeDone r) }

/-- Translation of `setEnv(keys, values, isTrusted)`: replace the stored snapshot wholesale
and fire the change event unconditionally. -/
def setEnvW (keys values : List String) (isTrusted : Bool) (w : World) : World :=
  { w with
      session := { w.session with env := some ⟨envOf keys values, isTrusted⟩ }
      events := w.events ++ [Event.changeEv] }

/-- The `wasChanged` computation of `setCwd`: when the stored cwd is a URI,
compare `toString()` renderings (and treat a non-URI replacement as a change);
otherwise (`undefined`) compare by reference, i.e. any URI differs. -/
def cwdChangedB (old new : Option String) : Bool :=
  match old with
  | some o =>
      match new with
      | none => true
      | some n => o != n
  | none => new.isSome

/-- Translation of `setCwd(cwd)`: store and fire the change event only when `wasChanged`. -/
def setCwdW (cwd : Option String) (w : World) : World :=
  if cwdChangedB w.session.cwd cwd then
    { w with
        session := { w.session with cwd := cwd }
        events := w.events ++ [Event.changeEv] }
  else w

/-- Translation of `setHasRichCommandDetection(value)`: store and fire the change event only
on an actual flip. -/
def setRichW (b : Bool) (w : World) : World :=
  if w.session.hasRichCommandDetection ≠ b then
    { w with
        session := { w.session with hasRichCommandDetection := b }
        events := w.events ++ [Event.changeEv] }
  else w

/-! ### The interleaving semantics -/

/-- One step of the cooperatively scheduled event loop for a single terminal:
either the synchronous body of an inbound signal handler or local API call
runs to completion, a suspended drain continuation resumes, or a consumer
drives one of its readers. -/
inductive Step : World → World → Prop where
  | requestNew (cl : CommandLine) (cwd : Option String) (w : World) :
      Step w (requestNewShellExecutionW cl cwd w).1
  | execCmd (exe : String) (args : Option (List String)) (w : World) :
      Step w (executeCommandW exe args w).1
  | start (cl : CommandLine) (cwd : Option String) (w : World) :
      Step w (startShellExecutionW cl cwd w)
  | emitD (d : String) (w : World) : Step w (emitDataW d w)
  | endE (cl : Option CommandLine) (exitCode : Option Int) (w : World) :
      Step w (endShellExecutionW cl exitCode w)
  | resume (i : Nat) (w : World) : Step w (resumeDrainW i w)
  | readAt (c : Nat) (w : World) : Step w (readAttachW c w)
  | consume (sid r : Nat) (w : World) : Step w (consumeW sid r w)
  | obsDone (sid r : Nat) (w : World) : Step w (observeDoneW sid r w)
  | envC (keys values : List String) (t : Bool) (w : World) :
      Step w (setEnvW keys values t w)
  | cwdC (cwd : Option String) (w : World) : Step w (setCwdW cwd w)
  | richC (b : Bool) (w : World) : Step w (setRichW b w)

/-- A world reachable from the fresh session by some interleaving. -/
def Reachable (w : World) : Prop :=
  Relation.ReflTransGen Step World.init w

/-! ### Helper lemmas -/

/-- First-match extraction as the specification describes it: walk the queue
in order, skip non-matching entries and keep them in place, remove the first
matching one. -/
def extractFirst (p : α → Bool) : List α → Option α × List α
  | [] => (none, [])
  | a :: t =>
      if p a then (some a, t)
      else
        let r := extractFirst p t
        (r.1, a :: r.2)

/-- The dequeue-by-confidence policy as the specification words it: on `High`
confidence, extract the first exact text match from the pending queue; on
lower confidence, dequeue the head unconditionally. -/
def pickSpec (execs : List ExecRecord) (cl : CommandLine) (active : List Nat) :
    Option Nat × List Nat :=
  if cl.confidence = Confidence.high then
    extractFirst (fun id => (execs.getD id default).commandLine.value == cl.value) active
  else
    (active.head?, active.tail)

/-- The per-argument formatting of the specification reading: quoted exactly
when `wrapInQuotes`, verbatim otherwise. -/
def fmtArg (arg : String) : String :=
  if wrapInQuotes arg then "\"" ++ arg ++ "\"" else arg

/-- Formatted arguments, each preceded by a single separating space. -/
def argsTail : List String → String
  | [] => ""
  | a :: as => " " ++ fmtArg a ++ argsTail as

/-- The specification reading of the assembled command line: the executable
followed by each formatted argument, separated by single spaces. -/
def buildCommandLineSpec (exe : String) (args : List String) : String :=
  exe ++ argsTail args

/-- A two-entry pending queue (`"ls"` then `"pwd"`) for witnessing C4. -/
def c4execs : List ExecRecord :=
  [⟨⟨"ls", .high, true⟩, none, none, false⟩, ⟨⟨"pwd", .high, true⟩, none, none, false⟩]

/-- A session with a last-known cwd and nothing pending, for witnessing C4. -/
def c4world : World :=
  { World.init with session := { SessionState.init with cwd := some "v" } }

/-- An execution holding stream `0`, whose single attached iterable has one
still-unconsumed chunk: the scenario exercising `flush` after `endExecution`. -/
def c2exec : ExecRecord := ⟨⟨"ls", .low, true⟩, none, some 0, false⟩

/-- The stream store for the C2 scenario: stream `0` has an unopened barrier
and one reader that was delivered `"a"` but has consumed nothing. -/
def c2heap : Heap := [⟨true, [⟨["a"], 0, false, false⟩]⟩]

/-! ### Lifecycle invariants for at-most-one end event -/

/-- Whether an event is an end event for execution `i`. -/
def isEndFor (i : Nat) : Event → Bool
  | .endEv j _ => j == i
  | _ => false

/-- Number of end events for execution `i` in an observation log. -/
def endsFor (i : Nat) (evs : List Event) : Nat := evs.countP (isEndFor i)

/-- Execution ids named by an event are below the allocation bound `n`. -/
def evBound (n : Nat) : Event → Prop
  | .startEv i => i < n
  | .endEv i _ => i < n
  | .changeEv => True
  | .requestExec _ => True
  | .newExec _ => True

/-- The reachable-state invariant: event-named executions exist, the pending
queue is duplicate-free and holds existing executions only, the current
execution exists and is not pending, and every execution has at most one end
event — moreover an execution with an end event can never be current or
pending again. -/
def WorldInv (w : World) : Prop :=
  (∀ ev ∈ w.events, evBound w.execs.length ev) ∧
  w.session.activeExecutions.Nodup ∧
  (∀ id ∈ w.session.activeExecutions, id < w.execs.length) ∧
  (∀ c, w.session.current = some c →
    c < w.execs.length ∧ c ∉ w.session.activeExecutions) ∧
  (∀ i, endsFor i w.events ≤ 1) ∧
  (∀ i, 1 ≤ endsFor i w.events →
    w.session.current ≠ some i ∧ i ∉ w.session.activeExecutions)

/-- C1 trace, step 1: a shell-reported start synthesizes execution `0`. -/
def c1w1 : World := startShellExecutionW ⟨"ls", .low, true⟩ none World.init

/-- C1 trace, step 2: a consumer calls `read()` on execution `0`, attaching
reader `0` of stream `0`. -/
def c1w2 : World := readAttachW 0 c1w1

/-- C1 trace, step 3: the shell reports an output chunk, delivered to the
attached emitter but not yet consumed by the reader's loop. -/
def c1w3 : World := emitDataW "a" c1w2

/-- C1 trace, step 4: the shell reports end-of-execution; the synchronous body
closes the stream, tears the reference down and suspends the
`flush().then(...)` continuation. -/
def c1w4 : World := endShellExecutionW none (some 0) c1w3

/-- C1 trace, step 5: the event loop resumes the drain continuation before the
consumer's loop ran; the end event fires. -/
def c1w5 : World := resumeDrainW 0 c1w4

/-! ### The session directory (`ExtHostTerminalShellIntegration`) -/

/-- An event fired directly by the directory-level handler
(`_onDidChangeTerminalShellIntegration` at the end of
`$shellIntegrationChange`). -/
inductive DirEvent where
  | integrationChange (handle : Nat)
deriving DecidableEq, Repr

/-- The extension-host directory: which terminal handles resolve to a live
terminal (`getTerminalById`), the map from handle to its lazily created
session (`_activeShellIntegrations`), and the directory-level event log. -/
structure Directory where
  live : List Nat
  sessions : List (Nat × World)
  dirEvents : List DirEvent
deriving DecidableEq, Repr

/-- Translation of `this._activeShellIntegrations.get(id)?.method(...)`: apply `f` to the
session at `id` when present; do nothing otherwise. -/
def Directory.updateSession (id : Nat) (f : World → World) (d : Directory) : Directory :=
  { d with sessions := d.sessions.map fun p => if p.1 = id then (p.1, f p.2) else p }

/-- Translation of `$shellIntegrationChange(instanceId)`: bail out when the terminal does not
resolve; otherwise lazily construct and wire the session on first sight, and
fire the integration-change event. -/
def shellIntegrationChangeD (id : Nat) (d : Directory) : Directory :=
  if id ∈ d.live then
    let d1 :=
      if (d.sessions.lookup id).isSome then d
      else { d with sessions := d.sessions ++ [(id, World.init)] }
    { d1 with dirEvents := d1.dirEvents ++ [DirEvent.integrationChange id] }
  else d

/-- Translation of `$shellExecutionStart`: force session creation through
`$shellIntegrationChange` when the handle is unseen, then forward to the
session if one exists. -/
def shellExecutionStartD (id : Nat) (cl : CommandLine) (cwd : Option String)
    (d : Directory) : Directory :=
  let d1 := if (d.sessions.lookup id).isSome then d else shellIntegrationChangeD id d
  d1.updateSession id (startShellExecutionW cl cwd)

/-- Translation of `$shellExecutionEnd`: forward to the session if one exists. -/
def shellExecutionEndD (id : Nat) (cl : Option CommandLine) (exitCode : Option Int)
    (d : Directory) : Directory :=
  d.updateSession id (endShellExecutionW cl exitCode)

/-- Translation of `$shellExecutionData`: forward to the session if one exists. -/
def shellExecutionDataD (id : Nat) (data : String) (d : Directory) : Directory :=
  d.updateSession id (emitDataW data)

/-- Translation of `$shellEnvChange`: forward to the session if one exists. -/
def shellEnvChangeD (id : Nat) (keys values : List String) (isTrusted : Bool)
    (d : Directory) : Directory :=
  d.updateSession id (setEnvW keys values isTrusted)

/-- Translation of `$cwdChange`: forward to the session if one exists. -/
def cwdChangeD (id : Nat) (cwd : Option String) (d : Directory) : Directory :=
  d.updateSession id (setCwdW cwd)

/-- Translation of `$setHasRichCommandDetection`: forward to the session if one exists. -/
def setHasRichCommandDetectionD (id : Nat) (b : Bool) (d : Directory) : Directory :=
  d.updateSession id (setRichW b)

/-- Translation of `$closeTerminal`: dispose and remove the session, if any. -/
def closeTerminalD (id : Nat) (d : Directory) : Directory :=
  { d with sessions := d.sessions.filter fun p => p.1 != id }

lemma findIdx?_start_shift (p : α → Bool) (l : List α) :
    ∀ n, List.findIdx? p l (n + 1) = (List.findIdx? p l n).map (· + 1) := by
  induction l with
  | nil => intro n; rfl
  | cons a t ih =>
      intro n
      by_cases h : p a
      · simp [List.findIdx?, h]
      · simp only [List.findIdx?, h]
        simp [ih (n + 1), ih n]

lemma pickHigh_eq_extractFirst (p : α → Bool) (l : List α) :
    (match l.findIdx? p with
      | some i => (l[i]?, l.eraseIdx i)
      | none => (none, l)) = extractFirst p l := by
  induction l with
  | nil => rfl
  | cons a t ih =>
      by_cases h : p a
      · simp [List.findIdx?, h, extractFirst]
      · simp only [List.findIdx?, h, extractFirst, if_neg, Bool.false_eq_true, if_false]
        rw [findIdx?_start_shift p t 0]
        rcases h' : t.findIdx? p with _ | i
        · rw [h'] at ih
          rw [← ih]
          simp
        · rw [h'] at ih
          rw [← ih]
          simp [List.eraseIdx_cons_succ]

lemma pickExecution_eq_pickSpec (execs : List ExecRecord) (cl : CommandLine)
    (active : List Nat) : pickExecution execs cl active = pickSpec execs cl active := by
  unfold pickExecution pickSpec
  by_cases h : cl.confidence = Confidence.high
  · simp only [h, if_true]
    exact pickHigh_eq_extractFirst _ active
  · simp [h]

lemma extractFirst_snd_sublist (p : α → Bool) (l : List α) :
    List.Sublist (extractFirst p l).2 l := by
  induction l with
  | nil => simp [extractFirst]
  | cons a t ih =>
      by_cases h : p a
      · simp [extractFirst, h]
      · simp [extractFirst, h]
        exact ih

lemma extractFirst_mem (p : α → Bool) (l : List α) (x : α)
    (h : (extractFirst p l).1 = some x) : x ∈ l := by
  induction l with
  | nil => simp [extractFirst] at h
  | cons a t ih =>
      by_cases hp : p a
      · simp [extractFirst, hp] at h
        simp [h]
      · simp [extractFirst, hp] at h
        exact List.mem_cons_of_mem a (ih h)

lemma extractFirst_not_mem (p : α → Bool) (l : List α) (x : α) (hn : l.Nodup)
    (h : (extractFirst p l).1 = some x) : x ∉ (extractFirst p l).2 := by
  induction l with
  | nil => simp [extractFirst] at h
  | cons a t ih =>
      rcases List.nodup_cons.mp hn with ⟨ha, ht⟩
      by_cases hp : p a
      · simp [extractFirst, hp] at h ⊢
        intro hx
        exact ha (h ▸ hx)
      · simp only [extractFirst, hp, Bool.false_eq_true, if_false] at h ⊢
        intro hx
        rcases List.mem_cons.mp hx with he | hm
        · exact ha (he ▸ extractFirst_mem p t x (by simpa using h))
        · exact ih ht (by simpa using h) hm

lemma extractFirst_decompose (p : α → Bool) (l : List α) (x : α)
    (h : (extractFirst p l).1 = some x) :
    ∃ pre post, l = pre ++ x :: post ∧ (extractFirst p l).2 = pre ++ post ∧
      (∀ y ∈ pre, p y = false) ∧ p x = true := by
  induction l with
  | nil => simp [extractFirst] at h
  | cons a t ih =>
      by_cases hp : p a
      · simp [extractFirst, hp] at h
        subst h
        exact ⟨[], t, rfl, by simp [extractFirst, hp], by simp, hp⟩
      · simp only [extractFirst, hp, Bool.false_eq_true, if_false] at h
        rcases ih (by simpa using h) with ⟨pre, post, h1, h2, h3, h4⟩
        refine ⟨a :: pre, post, by simp [h1], ?_, ?_, h4⟩
        · simp [extractFirst, hp, h2]
        · intro y hy
          rcases List.mem_cons.mp hy with he | hm
          · simpa [he] using hp
          · exact h3 y hm

lemma cwdChangedB_eq (old new : Option String) : cwdChangedB old new = decide (old ≠ new) := by
  cases old with
  | none => cases new <;> simp [cwdChangedB]
  | some o =>
      cases new with
      | none => simp [cwdChangedB]
      | some n => by_cases h : o = n <;> simp [cwdChangedB, h]

lemma buildCommandLine_eq_spec (as : List String) :
    ∀ exe, buildCommandLine exe (some as) = buildCommandLineSpec exe as := by
  induction as with
  | nil =>
      intro exe
      simp [buildCommandLine, buildCommandLineSpec, argsTail, String.append_empty]
  | cons a as ih =>
      intro exe
      have hstep :
          (if wrapInQuotes a then exe ++ " \"" ++ a ++ "\"" else exe ++ " " ++ a) =
            exe ++ (" " ++ fmtArg a) := by
        by_cases hw : wrapInQuotes a
        · rw [if_pos hw]
          unfold fmtArg
          rw [if_pos hw, show (" \"" : String) = " " ++ "\"" from by decide]
          simp only [← String.append_assoc]
        · rw [if_neg hw]
          unfold fmtArg
          rw [if_neg hw, String.append_assoc]
      have : buildCommandLine exe (some (a :: as)) =
          buildCommandLine (exe ++ (" " ++ fmtArg a)) (some as) := by
        simp only [buildCommandLine, List.foldl_cons]
        rw [← hstep]
      rw [this, ih]
      simp only [buildCommandLineSpec, argsTail]
      rw [String.append_assoc]

/-! ### The claims -/

/-- C7.  For every execution whose `endExecution` has already run, a
subsequent call to the public `read()` returns the immediately-terminated
empty sequence (`none` attachment, i.e. `AsyncIterableObject.EMPTY`, zero
chunks) rather than attaching a reader or changing any state. -/
theorem terminal_c7_post_close_read (e : ExecRecord) (h : Heap) (cl : Option CommandLine) :
    ((ExecRecord.endExecutionE cl e h).1.read (ExecRecord.endExecutionE cl e h).2).2.2 = none ∧
    ((ExecRecord.endExecutionE cl e h).1.read (ExecRecord.endExecutionE cl e h).2).1 =
      (ExecRecord.endExecutionE cl e h).1 ∧
    ((ExecRecord.endExecutionE cl e h).1.read (ExecRecord.endExecutionE cl e h).2).2.1 =
      (ExecRecord.endExecutionE cl e h).2 := by
  refine ⟨rfl, rfl, rfl⟩

/-- C8.  `setEnv` replaces the stored snapshot wholesale (the new snapshot
does not depend on the previously stored one) and fires exactly one change
event unconditionally, even when the new keys/values equal the stored
snapshot; `setCwd` fires a change event exactly when the new value differs
from the stored one (URI values being compared by their string rendering,
and an absent stored value only coinciding with an absent new one). -/
theorem terminal_c8_env_cwd_events :
    (∀ keys values t (w : World),
        (setEnvW keys values t w).events = w.events ++ [Event.changeEv] ∧
        (setEnvW keys values t w).session.env = some ⟨envOf keys values, t⟩ ∧
        ∀ w' : World,
          (setEnvW keys values t w).session.env = (setEnvW keys values t w').session.env) ∧
    (∀ cwd (w : World),
        (setCwdW cwd w).events =
          w.events ++ (if w.session.cwd = cwd then [] else [Event.changeEv])) := by
  constructor
  · intro keys values t w
    exact ⟨rfl, rfl, fun w' => rfl⟩
  · intro cwd w
    unfold setCwdW
    rw [cwdChangedB_eq]
    by_cases h : w.session.cwd = cwd <;> simp [h]

/-- C8 witness: a `shellEnvChange` carrying exactly the stored snapshot still
fires one change event, while a `cwdChange` carrying the stored value fires
none. -/
theorem terminal_c8_env_cwd_events_witness :
    (setEnvW ["A"] ["B"] true
        { World.init with
            session := { SessionState.init with
                           env := some ⟨envOf ["A"] ["B"], true⟩, cwd := some "u" } }).events =
      [Event.changeEv] ∧
    (setCwdW (some "u")
        { World.init with
            session := { SessionState.init with
                           env := some ⟨envOf ["A"] ["B"], true⟩, cwd := some "u" } }).events =
      [] := by
  refine ⟨?_, ?_⟩
  · have h := (terminal_c8_env_cwd_events.1 ["A"] ["B"] true
      { World.init with
          session := { SessionState.init with
                         env := some ⟨envOf ["A"] ["B"], true⟩, cwd := some "u" } }).1
    simpa using h
  · have h := terminal_c8_env_cwd_events.2 (some "u")
      { World.init with
          session := { SessionState.init with
                         env := some ⟨envOf ["A"] ["B"], true⟩, cwd := some "u" } }
    simpa using h

/-- C10.  The command line assembled by the public
`executeCommand(executable, args)` is the executable followed by each argument
separated by a single space, an argument being wrapped in double quotes
exactly when it contains a whitespace character and none of double quote,
single quote or backtick; the registered pending execution stores that
command line with `High` confidence and `isTrusted = true`, is appended to the
pending queue, and the same command line is the one fired at the transport. -/
theorem terminal_c10_execute_command :
    (∀ exe as, buildCommandLine exe (some as) = buildCommandLineSpec exe as) ∧
    (∀ exe, buildCommandLine exe none = exe) ∧
    (∀ arg, wrapInQuotes arg = true ↔
        ((∃ c ∈ arg.data, isJsWhitespace c = true) ∧ ∀ c ∈ arg.data, isQuoteChar c = false)) ∧
    (∀ exe args (w : World),
        ((executeCommandW exe args w).1.execs.getD (executeCommandW exe args w).2
            default).commandLine =
          ⟨buildCommandLine exe args, Confidence.high, true⟩ ∧
        (executeCommandW exe args w).2 ∈ (executeCommandW exe args w).1.session.activeExecutions ∧
        Event.requestExec (buildCommandLine exe args) ∈ (executeCommandW exe args w).1.events) := by
  refine ⟨fun exe as => buildCommandLine_eq_spec as exe, fun exe => rfl, ?_, ?_⟩
  · intro arg
    unfold wrapInQuotes
    constructor
    · intro hw
      rw [Bool.and_eq_true] at hw
      exact ⟨List.any_eq_true.mp hw.2, by simpa using hw.1⟩
    · intro hcond
      rw [Bool.and_eq_true]
      exact ⟨by simpa using hcond.2, List.any_eq_true.mpr hcond.1⟩
  · intro exe args w
    refine ⟨?_, ?_, ?_⟩
    · simp [executeCommandW, requestNewShellExecutionW, List.getD_eq_getElem?_getD,
        List.getElem?_concat_length]
    · simp [executeCommandW, requestNewShellExecutionW]
    · simp [executeCommandW, requestNewShellExecutionW]

/-- C10 witness: a concrete invocation, with one argument needing quoting and
one containing a quote character appended verbatim. -/
theorem terminal_c10_execute_command_witness :
    buildCommandLine "git" (some ["commit", "-m", "a message", "it's"]) =
      buildCommandLineSpec "git" ["commit", "-m", "a message", "it's"] ∧
    buildCommandLine "git" (some ["commit", "-m", "a message", "it's"]) =
      "git commit -m \"a message\" it's" := by
  exact ⟨terminal_c10_execute_command.1 "git" ["commit", "-m", "a message", "it's"], by decide⟩

/-- C4.  The execution made current by a shell-reported start follows the
confidence-weighted policy exactly: the implementation's `findIndex`/`splice`
(resp. `shift`) dequeue equals the specification's first-exact-match (resp.
unconditional head) dequeue; when `High` confidence finds a match it is the
first pending entry in queue order whose command-line text equals the
reported text, with all skipped entries preserved; and when neither branch
yields an execution, a brand-new one is synthesized from the reported command
line with the reported cwd, falling back to the session's last-known cwd. -/
theorem terminal_c4_correlation_policy :
    (∀ execs cl active, pickExecution execs cl active = pickSpec execs cl active) ∧
    (∀ execs cl active x, cl.confidence = Confidence.high →
        (pickExecution execs cl active).1 = some x →
        ∃ pre post, active = pre ++ x :: post ∧
          (pickExecution execs cl active).2 = pre ++ post ∧
          (∀ y ∈ pre, ((execs.getD y default).commandLine.value == cl.value) = false) ∧
          ((execs.getD x default).commandLine.value == cl.value) = true) ∧
    (∀ execs cl active, cl.confidence ≠ Confidence.high →
        pickExecution execs cl active = (active.head?, active.tail)) ∧
    (∀ (w : World) cl cwd, w.session.current = none →
        (pickExecution w.execs cl w.session.activeExecutions).1 = none →
        startShellExecutionW cl cwd w =
          { w with
              execs := w.execs ++ [⟨cl, cwd.orElse fun _ => w.session.cwd, none, false⟩]
              session := { w.session with
                             activeExecutions :=
                               (pickExecution w.execs cl w.session.activeExecutions).2
                             current := some w.execs.length }
              events := w.events ++ [Event.startEv w.execs.length] }) := by
  refine ⟨pickExecution_eq_pickSpec, ?_, ?_, ?_⟩
  · intro execs cl active x hconf hx
    rw [pickExecution_eq_pickSpec] at hx ⊢
    unfold pickSpec at hx ⊢
    rw [if_pos hconf] at hx ⊢
    exact extractFirst_decompose _ active x hx
  · intro execs cl active hconf
    unfold pickExecution
    rw [if_neg hconf]
  · intro w cl cwd hcur hpick
    have h1 : startForceEnd w = w := by
      unfold startForceEnd
      rw [hcur]
    unfold startShellExecutionW
    rw [h1]
    unfold startPick
    simp only [hpick]

/-- C4 witness: with pending `["ls", "pwd"]`, a High-confidence start for
`"pwd"` extracts the second entry leaving the first pending; a Low-confidence
start dequeues the head; an empty queue synthesizes a new current execution
with the session's cwd as fallback. -/
theorem terminal_c4_correlation_policy_witness :
    (∃ pre post, ([0, 1] : List Nat) = pre ++ 1 :: post ∧
        (pickExecution c4execs ⟨"pwd", .high, true⟩ [0, 1]).2 = pre ++ post ∧
        (∀ y ∈ pre, ((c4execs.getD y default).commandLine.value == "pwd") = false) ∧
        ((c4execs.getD 1 default).commandLine.value == "pwd") = true) ∧
    pickExecution c4execs ⟨"???", .low, true⟩ [0, 1] =
      (([0, 1] : List Nat).head?, ([0, 1] : List Nat).tail) ∧
    startShellExecutionW ⟨"top", .high, true⟩ (some "u") c4world =
      { c4world with
          execs := c4world.execs ++
            [⟨⟨"top", .high, true⟩, (some "u").orElse fun _ => c4world.session.cwd, none, false⟩]
          session := { c4world.session with
                         activeExecutions :=
                           (pickExecution c4world.execs ⟨"top", .high, true⟩
                             c4world.session.activeExecutions).2
                         current := some c4world.execs.length }
          events := c4world.events ++ [Event.startEv c4world.execs.length] } := by
  refine ⟨?_, ?_, ?_⟩
  · exact terminal_c4_correlation_policy.2.1 c4execs ⟨"pwd", .high, true⟩ [0, 1] 1 rfl (by decide)
  · exact terminal_c4_correlation_policy.2.2.1 c4execs ⟨"???", .low, true⟩ [0, 1] (by decide)
  · exact terminal_c4_correlation_policy.2.2.2 c4world ⟨"top", .high, true⟩ (some "u") rfl
      (by decide)

/-- C2.  The code calls `flush()` only after `endExecution` has already set
`this._dataStream = undefined`, and `flush` dereferences the *current* stream
reference (`await this._dataStream?.flush()`), not one captured before
teardown: before `endExecution` the drain obligation names the attached
iterable `(0, 0)`, but after it the captured obligation is empty, so the
returned promise resolves immediately even though the reader still has an
unconsumed chunk and has not observed termination of its sequence. -/
theorem terminal_c2_flush_after_teardown :
    c2exec.flushObligation c2heap = [(0, 0)] ∧
    (ExecRecord.endExecutionE none c2exec c2heap).1.flushObligation
        (ExecRecord.endExecutionE none c2exec c2heap).2 = [] ∧
    (((ExecRecord.endExecutionE none c2exec c2heap).2.getD 0 default).readers.getD 0
        default).observedDone = false ∧
    (((ExecRecord.endExecutionE none c2exec c2heap).2.getD 0 default).readers.getD 0
        default).consumed = 0 ∧
    (((ExecRecord.endExecutionE none c2exec c2heap).2.getD 0 default).readers.getD 0
        default).delivered = ["a"] := by
  refine ⟨rfl, rfl, by decide, by decide, by decide⟩

lemma createIterable_readers (s : DataStream) :
    (s.createIterable).1.readers = s.readers ++ [Reader.init] := by
  unfold DataStream.createIterable
  by_cases h : s.barrier <;> simp [h]

lemma foldl_streamStep_delivered (ops : List StreamOp) :
    ∀ (s : DataStream) (r : Nat),
      ((ops.foldl streamStep s).readers[r]?).map Reader.delivered =
        if r < s.readers.length then
          (s.readers[r]?).map (fun rd => rd.delivered ++ pushesOf ops)
        else if r - s.readers.length < attachCount ops then
          some (pushesOf (afterAttach (r - s.readers.length) ops))
        else none := by
  induction ops with
  | nil =>
      intro s r
      by_cases h : r < s.readers.length
      · simp [h, pushesOf]
      · simp [h, attachCount, List.getElem?_eq_none (Nat.le_of_not_lt h)]
  | cons op ops ih =>
      intro s r
      rw [List.foldl_cons]
      cases op with
      | push d =>
          rw [ih (streamStep s (.push d)) r]
          have hlen : (streamStep s (.push d)).readers.length = s.readers.length := by
            simp [streamStep, DataStream.emitData]
          rw [hlen]
          by_cases h : r < s.readers.length
          · rw [if_pos h, if_pos h]
            have : (streamStep s (.push d)).readers[r]? =
                (s.readers[r]?).map fun rd => { rd with delivered := rd.delivered ++ [d] } := by
              simp [streamStep, DataStream.emitData]
            rw [this]
            rcases s.readers[r]? with _ | rd
            · rfl
            · simp [pushesOf]
          · rw [if_neg h, if_neg h]
            by_cases h3 : r - s.readers.length < attachCount ops
            · rw [if_pos h3, if_pos (by simpa [attachCount] using h3)]
              congr 1
              cases hk : r - s.readers.length <;> simp [afterAttach]
            · rw [if_neg h3, if_neg (by simpa [attachCount] using h3)]
      | close =>
          rw [ih (streamStep s .close) r]
          have hlen : (streamStep s .close).readers.length = s.readers.length := by
            simp [streamStep, DataStream.close]
          rw [hlen]
          by_cases h : r < s.readers.length
          · rw [if_pos h, if_pos h]
            have : (streamStep s .close).readers[r]? =
                (s.readers[r]?).map fun rd => { rd with released := true } := by
              simp [streamStep, DataStream.close]
            rw [this]
            rcases s.readers[r]? with _ | rd
            · rfl
            · simp [pushesOf]
          · rw [if_neg h, if_neg h]
            by_cases h3 : r - s.readers.length < attachCount ops
            · rw [if_pos h3, if_pos (by simpa [attachCount] using h3)]
              congr 1
              cases hk : r - s.readers.length <;> simp [afterAttach]
            · rw [if_neg h3, if_neg (by simpa [attachCount] using h3)]
      | attach =>
          rw [ih (streamStep s .attach) r]
          have hreaders : (streamStep s .attach).readers = s.readers ++ [Reader.init] :=
            createIterable_readers s
          have hlen : (streamStep s .attach).readers.length = s.readers.length + 1 := by
            rw [hreaders]; simp
          rw [hlen]
          rcases Nat.lt_trichotomy r s.readers.length with h | h | h
          · rw [if_pos (Nat.lt_succ_of_lt h), if_pos h]
            rw [hreaders, List.getElem?_append_left h]
            rcases s.readers[r]? with _ | rd
            · rfl
            · simp [pushesOf]
          · subst h
            rw [if_pos (Nat.lt_succ_self _), if_neg (Nat.lt_irrefl _)]
            rw [hreaders]
            rw [show (s.readers ++ [Reader.init])[s.readers.length]? = some Reader.init from
              List.getElem?_concat_length _ _]
            rw [if_pos (by simp [attachCount, Nat.sub_self])]
            simp [Reader.init, afterAttach, Nat.sub_self]
          · have h1 : ¬r < s.readers.length + 1 := by omega
            have h2 : ¬r < s.readers.length := by omega
            rw [if_neg h1, if_neg h2]
            obtain ⟨k, hk⟩ : ∃ k, r - s.readers.length = k + 1 :=
              ⟨r - s.readers.length - 1, by omega⟩
            have hk2 : r - (s.readers.length + 1) = k := by omega
            rw [hk, hk2]
            have hcnt : attachCount (StreamOp.attach :: ops) = attachCount ops + 1 := rfl
            have hafter : afterAttach (k + 1) (StreamOp.attach :: ops) = afterAttach k ops := rfl
            rw [hcnt, hafter]
            by_cases h3 : k < attachCount ops
            · rw [if_pos h3, if_pos (by omega)]
            · rw [if_neg h3, if_neg (by omega)]

/-- C6.  For every producer-side trace and every reader attached by it, the
chunks delivered to that reader are exactly the chunks pushed strictly after
its attachment, in push order; chunks pushed earlier are never replayed. -/
theorem terminal_c6_no_replay (ops : List StreamOp) (r : Nat) (rd : Reader)
    (h : (runStream ops).readers[r]? = some rd) :
    rd.delivered = pushesOf (afterAttach r ops) := by
  have hfold := foldl_streamStep_delivered ops ⟨false, []⟩ r
  rw [show runStream ops = ops.foldl streamStep ⟨false, []⟩ from rfl] at h
  rw [h] at hfold
  simp only [List.length_nil, Nat.not_lt_zero, if_false, Nat.sub_zero] at hfold
  by_cases h3 : r < attachCount ops
  · rw [if_pos h3] at hfold
    simpa using hfold
  · rw [if_neg h3] at hfold
    simp at hfold

/-- C6 witness: a chunk pushed before the attachment (`"x"`) is not replayed;
chunks pushed after it are delivered in order. -/
theorem terminal_c6_no_replay_witness :
    (runStream [.push "x", .attach, .push "a", .push "b", .close]).readers[0]? =
      some ⟨["a", "b"], 0, true, false⟩ ∧
    (⟨["a", "b"], 0, true, false⟩ : Reader).delivered =
      pushesOf (afterAttach 0 [.push "x", .attach, .push "a", .push "b", .close]) :=
  ⟨by decide, terminal_c6_no_replay [.push "x", .attach, .push "a", .push "b", .close] 0
    ⟨["a", "b"], 0, true, false⟩ (by decide)⟩

lemma applyEndExecution_session (c : Nat) (cl : Option CommandLine) (w : World) :
    (applyEndExecution c cl w).session = w.session := by
  unfold applyEndExecution
  cases w.execs[c]? <;> rfl

lemma applyEndExecution_events (c : Nat) (cl : Option CommandLine) (w : World) :
    (applyEndExecution c cl w).events = w.events := by
  unfold applyEndExecution
  cases w.execs[c]? <;> rfl

lemma applyEndExecution_drains (c : Nat) (cl : Option CommandLine) (w : World) :
    (applyEndExecution c cl w).drains = w.drains := by
  unfold applyEndExecution
  cases w.execs[c]? <;> rfl

lemma applyEndExecution_execs_length (c : Nat) (cl : Option CommandLine) (w : World) :
    (applyEndExecution c cl w).execs.length = w.execs.length := by
  unfold applyEndExecution
  cases w.execs[c]? <;> simp

lemma applyEndExecution_ended (c : Nat) (cl : Option CommandLine) (w : World)
    (hc : c < w.execs.length) :
    ((applyEndExecution c cl w).execs.getD c default).ended = true := by
  unfold applyEndExecution
  rw [List.getElem?_eq_getElem hc]
  simp only [List.getD_eq_getElem?_getD, List.getElem?_set_self hc]
  rfl

lemma getD_append_left (l l2 : List α) (i : Nat) (hi : i < l.length) (d : α) :
    (l ++ l2).getD i d = l.getD i d := by
  simp [List.getD_eq_getElem?_getD, List.getElem?_append_left hi]

/-- C3.  `currentExecution` is at most a single execution at any time, and a
shell-reported start arriving while an execution is current first force-ends
that prior execution (its record is marked ended) and fires its end event with
no exit code, strictly before the start event that installs the new current
execution. -/
theorem terminal_c3_at_most_one_current (w : World) (cl : CommandLine) (cwd : Option String)
    (c : Nat) (hcur : w.session.current = some c) (hc : c < w.execs.length) :
    (∀ v : World, v.session.current = none ∨ ∃! x, v.session.current = some x) ∧
    ∃ p, (startShellExecutionW cl cwd w).events =
        w.events ++ [Event.endEv c none, Event.startEv p] ∧
      (startShellExecutionW cl cwd w).session.current = some p ∧
      ((startShellExecutionW cl cwd w).execs.getD c default).ended = true := by
  constructor
  · intro v
    cases hv : v.session.current with
    | none => exact Or.inl rfl
    | some x => exact Or.inr ⟨x, rfl, fun y hy => (Option.some.inj hy).symm⟩
  · have h1 : startForceEnd w =
        { applyEndExecution c none w with
            events := (applyEndExecution c none w).events ++ [Event.endEv c none] } := by
      unfold startForceEnd
      rw [hcur]
    unfold startShellExecutionW
    rw [h1]
    unfold startPick
    dsimp only
    split
    case _ p hp =>
      refine ⟨p, ?_, rfl, ?_⟩
      · simp [applyEndExecution_events]
      · exact applyEndExecution_ended c none w hc
    case _ hp =>
      refine ⟨_, ?_, rfl, ?_⟩
      · simp [applyEndExecution_events]
      · simp only [List.getD_eq_getElem?_getD,
          List.getElem?_append_left
            (show c < (applyEndExecution c none w).execs.length from by
              rw [applyEndExecution_execs_length]; exact hc)]
        have := applyEndExecution_ended c none w hc
        rwa [List.getD_eq_getElem?_getD] at this

/-- C3 witness: a session with a current synthesized execution receives a
second start; the prior execution is ended and its end event precedes the new
start event. -/
theorem terminal_c3_at_most_one_current_witness :
    (startShellExecutionW ⟨"b", .low, true⟩ none
        (startShellExecutionW ⟨"a", .low, true⟩ none World.init)).session.current = some 1 ∧
    (∃ p, (startShellExecutionW ⟨"b", .low, true⟩ none
          (startShellExecutionW ⟨"a", .low, true⟩ none World.init)).events =
        (startShellExecutionW ⟨"a", .low, true⟩ none World.init).events ++
          [Event.endEv 0 none, Event.startEv p] ∧
      (startShellExecutionW ⟨"b", .low, true⟩ none
          (startShellExecutionW ⟨"a", .low, true⟩ none World.init)).session.current = some p ∧
      ((startShellExecutionW ⟨"b", .low, true⟩ none
          (startShellExecutionW ⟨"a", .low, true⟩ none World.init)).execs.getD 0
          default).ended = true) := by
  refine ⟨by decide, (terminal_c3_at_most_one_current
    (startShellExecutionW ⟨"a", .low, true⟩ none World.init) ⟨"b", .low, true⟩ none 0
    (by decide) (by decide)).2⟩

lemma endsFor_append (i : Nat) (e1 e2 : List Event) :
    endsFor i (e1 ++ e2) = endsFor i e1 + endsFor i e2 :=
  List.countP_append _ _ _

lemma endsFor_startEv (i p : Nat) : endsFor i [Event.startEv p] = 0 := rfl

lemma endsFor_changeEv (i : Nat) : endsFor i [Event.changeEv] = 0 := rfl

lemma endsFor_newExec (i : Nat) (c : String) : endsFor i [Event.newExec c] = 0 := rfl

lemma endsFor_requestExec (i : Nat) (c : String) : endsFor i [Event.requestExec c] = 0 := rfl

lemma endsFor_endEv (i c : Nat) (x : Option Int) :
    endsFor i [Event.endEv c x] = if c = i then 1 else 0 := by
  by_cases h : c = i <;> simp [endsFor, List.countP_cons, isEndFor, h]

lemma endsFor_pos_mem (i : Nat) (evs : List Event) (h : 1 ≤ endsFor i evs) :
    ∃ x, Event.endEv i x ∈ evs := by
  obtain ⟨ev, hmem, hp⟩ := List.countP_pos_iff.mp (Nat.lt_of_lt_of_le Nat.zero_lt_one h)
  cases ev with
  | endEv j x =>
      refine ⟨x, ?_⟩
      have : j = i := by simpa [isEndFor] using hp
      rwa [this] at hmem
  | startEv p => simp [isEndFor] at hp
  | changeEv => simp [isEndFor] at hp
  | requestExec c => simp [isEndFor] at hp
  | newExec c => simp [isEndFor] at hp

lemma evBound_mono (n m : Nat) (h : n ≤ m) (ev : Event) : evBound n ev → evBound m ev := by
  cases ev <;> simp [evBound] <;> omega

lemma pick_fst_mem (ex : List ExecRecord) (cl : CommandLine) (a : List Nat) (p : Nat)
    (h : (pickExecution ex cl a).1 = some p) : p ∈ a := by
  rw [pickExecution_eq_pickSpec] at h
  unfold pickSpec at h
  by_cases hc : cl.confidence = Confidence.high
  · rw [if_pos hc] at h
    exact extractFirst_mem _ a p h
  · rw [if_neg hc] at h
    cases a with
    | nil => simp at h
    | cons x t =>
        simp at h
        simp [h]

lemma pick_snd_sublist (ex : List ExecRecord) (cl : CommandLine) (a : List Nat) :
    List.Sublist (pickExecution ex cl a).2 a := by
  rw [pickExecution_eq_pickSpec]
  unfold pickSpec
  by_cases hc : cl.confidence = Confidence.high
  · rw [if_pos hc]
    exact extractFirst_snd_sublist _ a
  · rw [if_neg hc]
    exact List.tail_sublist a

lemma pick_not_mem (ex : List ExecRecord) (cl : CommandLine) (a : List Nat) (p : Nat)
    (hnd : a.Nodup) (h : (pickExecution ex cl a).1 = some p) :
    p ∉ (pickExecution ex cl a).2 := by
  rw [pickExecution_eq_pickSpec] at h ⊢
  unfold pickSpec at h ⊢
  by_cases hc : cl.confidence = Confidence.high
  · rw [if_pos hc] at h ⊢
    exact extractFirst_not_mem _ a p hnd h
  · rw [if_neg hc] at h ⊢
    cases a with
    | nil => simp at h
    | cons x t =>
        simp at h ⊢
        rw [← h]
        exact (List.nodup_cons.mp hnd).1

lemma worldInv_quiet (w w' : World) (delta : List Event) (hinv : WorldInv w)
    (ha : w'.session.activeExecutions = w.session.activeExecutions)
    (hc : w'.session.current = w.session.current)
    (he : w'.events = w.events ++ delta)
    (hz : ∀ i, endsFor i delta = 0)
    (hb : ∀ ev ∈ delta, evBound w.execs.length ev)
    (hl : w'.execs.length = w.execs.length) :
    WorldInv w' := by
  obtain ⟨i1, i2, i3, i4, i5, i6⟩ := hinv
  refine ⟨?_, ?_, ?_, ?_, ?_, ?_⟩
  · intro ev hev
    rw [he] at hev
    rw [hl]
    rcases List.mem_append.mp hev with h | h
    · exact i1 ev h
    · exact hb ev h
  · rw [ha]
    exact i2
  · rw [ha, hl]
    exact i3
  · intro c hcv
    rw [hc] at hcv
    rw [ha, hl]
    exact i4 c hcv
  · intro i
    rw [he, endsFor_append, hz i]
    simpa using i5 i
  · intro i hpos
    rw [he, endsFor_append, hz i] at hpos
    rw [ha, hc]
    exact i6 i (by simpa using hpos)

lemma worldInv_emitData (d : String) (w : World) (hinv : WorldInv w) :
    WorldInv (emitDataW d w) := by
  unfold emitDataW
  split
  · exact hinv
  · split
    · exact hinv
    · exact worldInv_quiet w _ [] hinv rfl rfl (by simp) (fun i => rfl) (by simp) rfl

lemma worldInv_readAttach (c : Nat) (w : World) (hinv : WorldInv w) :
    WorldInv (readAttachW c w) := by
  unfold readAttachW
  split
  · exact hinv
  · exact worldInv_quiet w _ [] hinv rfl rfl (by simp) (fun i => rfl) (by simp) (by simp)

lemma worldInv_consume (sid r : Nat) (w : World) (hinv : WorldInv w) :
    WorldInv (consumeW sid r w) :=
  worldInv_quiet w _ [] hinv rfl rfl (by simp [consumeW]) (fun i => rfl) (by simp) rfl

lemma worldInv_observeDone (sid r : Nat) (w : World) (hinv : WorldInv w) :
    WorldInv (observeDoneW sid r w) :=
  worldInv_quiet w _ [] hinv rfl rfl (by simp [observeDoneW]) (fun i => rfl) (by simp) rfl

lemma worldInv_endShell (cl : Option CommandLine) (x : Option Int) (w : World)
    (hinv : WorldInv w) : WorldInv (endShellExecutionW cl x w) := by
  unfold endShellExecutionW
  split
  · exact hinv
  next c hcur =>
    refine worldInv_quiet w _ [] hinv ?_ ?_ ?_ (fun i => rfl) (by simp) ?_
    · show (applyEndExecution c cl w).session.activeExecutions = _
      rw [applyEndExecution_session]
    · show (applyEndExecution c cl w).session.current = _
      rw [applyEndExecution_session]
    · show (applyEndExecution c cl w).events = _
      rw [applyEndExecution_events]
      simp
    · show (applyEndExecution c cl w).execs.length = _
      rw [applyEndExecution_execs_length]

lemma worldInv_setEnv (keys values : List String) (t : Bool) (w : World)
    (hinv : WorldInv w) : WorldInv (setEnvW keys values t w) :=
  worldInv_quiet w _ [Event.changeEv] hinv rfl rfl rfl (fun i => rfl)
    (by intro ev hev; simp at hev; simp [hev, evBound]) rfl

lemma worldInv_setCwd (cwd : Option String) (w : World) (hinv : WorldInv w) :
    WorldInv (setCwdW cwd w) := by
  unfold setCwdW
  split
  · exact worldInv_quiet w _ [Event.changeEv] hinv rfl rfl rfl (fun i => rfl)
      (by intro ev hev; simp at hev; simp [hev, evBound]) rfl
  · exact hinv

lemma worldInv_setRich (b : Bool) (w : World) (hinv : WorldInv w) :
    WorldInv (setRichW b w) := by
  unfold setRichW
  split
  · exact worldInv_quiet w _ [Event.changeEv] hinv rfl rfl rfl (fun i => rfl)
      (by intro ev hev; simp at hev; simp [hev, evBound]) rfl
  · exact hinv

lemma worldInv_requestNew (cl : CommandLine) (cwd : Option String) (w : World)
    (hinv : WorldInv w) : WorldInv (requestNewShellExecutionW cl cwd w).1 := by
  obtain ⟨i1, i2, i3, i4, i5, i6⟩ := hinv
  have hlt : ∀ i, 1 ≤ endsFor i w.events → i < w.execs.length := by
    intro i hpos
    obtain ⟨x, hx⟩ := endsFor_pos_mem i w.events hpos
    exact i1 _ hx
  refine ⟨?_, ?_, ?_, ?_, ?_, ?_⟩
  · intro ev hev
    simp only [requestNewShellExecutionW] at hev ⊢
    rw [List.length_append]
    rcases List.mem_append.mp hev with h | h
    · exact evBound_mono _ _ (Nat.le_add_right _ _) ev (i1 ev h)
    · simp at h
      simp [h, evBound]
  · simp only [requestNewShellExecutionW]
    rw [List.nodup_append]
    refine ⟨i2, List.nodup_singleton _, ?_⟩
    intro x hx hx2
    simp at hx2
    subst hx2
    exact absurd (i3 _ hx) (Nat.lt_irrefl _)
  · intro id hid
    simp only [requestNewShellExecutionW] at hid ⊢
    rw [List.length_append]
    rcases List.mem_append.mp hid with h | h
    · exact Nat.lt_succ_of_lt (i3 id h)
    · simp at h
      simp [h]
  · intro c hcv
    simp only [requestNewShellExecutionW] at hcv ⊢
    rcases i4 c hcv with ⟨hc1, hc2⟩
    rw [List.length_append]
    refine ⟨Nat.lt_succ_of_lt hc1, ?_⟩
    intro hmem
    rcases List.mem_append.mp hmem with h | h
    · exact hc2 h
    · simp at h
      omega
  · intro i
    simp only [requestNewShellExecutionW]
    rw [endsFor_append, endsFor_newExec]
    simpa using i5 i
  · intro i hpos
    simp only [requestNewShellExecutionW] at hpos ⊢
    rw [endsFor_append, endsFor_newExec] at hpos
    simp at hpos
    rcases i6 i hpos with ⟨hc1, hc2⟩
    refine ⟨hc1, ?_⟩
    intro hmem
    rcases List.mem_append.mp hmem with h | h
    · exact hc2 h
    · simp at h
      have := hlt i hpos
      omega

lemma worldInv_execCmd (exe : String) (args : Option (List String)) (w : World)
    (hinv : WorldInv w) : WorldInv (executeCommandW exe args w).1 := by
  unfold executeCommandW
  exact worldInv_requestNew _ _ _
    (worldInv_quiet w _ [Event.requestExec (buildCommandLine exe args)] hinv rfl rfl rfl
      (fun i => rfl) (by intro ev hev; simp at hev; simp [hev, evBound]) rfl)

lemma startForceEnd_facts (w : World) (hinv : WorldInv w) :
    (startForceEnd w).session = w.session ∧
    (startForceEnd w).execs.length = w.execs.length ∧
    (∀ ev ∈ (startForceEnd w).events, evBound w.execs.length ev) ∧
    (∀ i, endsFor i (startForceEnd w).events ≤ 1) ∧
    (∀ i, 1 ≤ endsFor i (startForceEnd w).events →
      i ∉ w.session.activeExecutions ∧ i < w.execs.length) := by
  obtain ⟨i1, i2, i3, i4, i5, i6⟩ := hinv
  have hlt : ∀ i, 1 ≤ endsFor i w.events → i < w.execs.length := by
    intro i hpos
    obtain ⟨x, hx⟩ := endsFor_pos_mem i w.events hpos
    exact i1 _ hx
  unfold startForceEnd
  split
  · exact ⟨rfl, rfl, i1, i5, fun i h => ⟨(i6 i h).2, hlt i h⟩⟩
  next c hcur =>
    rcases i4 c hcur with ⟨hclt, hcact⟩
    have hzero : endsFor c w.events = 0 := by
      by_contra hne
      have : 1 ≤ endsFor c w.events := Nat.one_le_iff_ne_zero.mpr hne
      exact (i6 c this).1 hcur
    refine ⟨?_, ?_, ?_, ?_, ?_⟩
    · show (applyEndExecution c none w).session = _
      rw [applyEndExecution_session]
    · show (applyEndExecution c none w).execs.length = _
      rw [applyEndExecution_execs_length]
    · show ∀ ev ∈ (applyEndExecution c none w).events ++ [Event.endEv c none], _
      rw [applyEndExecution_events]
      intro ev hev
      rcases List.mem_append.mp hev with h | h
      · exact i1 ev h
      · simp at h
        simp [h, evBound, hclt]
    · intro i
      show endsFor i ((applyEndExecution c none w).events ++ [Event.endEv c none]) ≤ 1
      rw [applyEndExecution_events, endsFor_append, endsFor_endEv]
      by_cases h : c = i
      · subst h
        simp [hzero]
      · simp [h]
        exact i5 i
    · intro i hpos
      have hpos2 : 1 ≤ endsFor i
          ((applyEndExecution c none w).events ++ [Event.endEv c none]) := hpos
      clear hpos
      rename' hpos2 => hpos
      rw [applyEndExecution_events, endsFor_append, endsFor_endEv] at hpos
      by_cases h : c = i
      · subst h
        exact ⟨hcact, hclt⟩
      · rw [if_neg h] at hpos
        simp at hpos
        exact ⟨(i6 i hpos).2, hlt i hpos⟩

lemma worldInv_startPick (cl : CommandLine) (cwd : Option String) (w1 : World)
    (h1 : ∀ ev ∈ w1.events, evBound w1.execs.length ev)
    (h2 : w1.session.activeExecutions.Nodup)
    (h3 : ∀ x ∈ w1.session.activeExecutions, x < w1.execs.length)
    (h5 : ∀ i, endsFor i w1.events ≤ 1)
    (h6 : ∀ i, 1 ≤ endsFor i w1.events →
      i ∉ w1.session.activeExecutions ∧ i < w1.execs.length) :
    WorldInv (startPick cl cwd w1) := by
  have hsub := pick_snd_sublist w1.execs cl w1.session.activeExecutions
  unfold startPick
  dsimp only
  split
  next p hp =>
    have hpm : p ∈ w1.session.activeExecutions := pick_fst_mem _ _ _ _ hp
    have hpn : p ∉ (pickExecution w1.execs cl w1.session.activeExecutions).2 :=
      pick_not_mem _ _ _ _ h2 hp
    have hplt : p < w1.execs.length := h3 p hpm
    refine ⟨?_, ?_, ?_, ?_, ?_, ?_⟩
    · intro ev hev
      rcases List.mem_append.mp hev with h | h
      · exact h1 ev h
      · simp at h
        simp [h, evBound, hplt]
    · exact List.Nodup.sublist hsub h2
    · intro x hx
      exact h3 x (hsub.subset hx)
    · intro c hcv
      have : p = c := Option.some.inj hcv
      subst this
      exact ⟨hplt, hpn⟩
    · intro i
      rw [endsFor_append, endsFor_startEv]
      simpa using h5 i
    · intro i hpos
      rw [endsFor_append, endsFor_startEv] at hpos
      simp at hpos
      rcases h6 i hpos with ⟨hna, hilt⟩
      constructor
      · intro hcv
        have : p = i := Option.some.inj hcv
        subst this
        exact hna hpm
      · intro hmem
        exact hna (hsub.subset hmem)
  next hp =>
    refine ⟨?_, ?_, ?_, ?_, ?_, ?_⟩
    · intro ev hev
      rw [List.length_append]
      rcases List.mem_append.mp hev with h | h
      · exact evBound_mono _ _ (Nat.le_add_right _ _) ev (h1 ev h)
      · simp at h
        simp [h, evBound]
    · exact List.Nodup.sublist hsub h2
    · intro x hx
      rw [List.length_append]
      exact Nat.lt_succ_of_lt (h3 x (hsub.subset hx))
    · intro c hcv
      have hcc : w1.execs.length = c := Option.some.inj hcv
      subst hcc
      rw [List.length_append]
      refine ⟨by simp, ?_⟩
      intro hmem
      exact absurd (h3 _ (hsub.subset hmem)) (Nat.lt_irrefl _)
    · intro i
      rw [endsFor_append, endsFor_startEv]
      simpa using h5 i
    · intro i hpos
      rw [endsFor_append, endsFor_startEv] at hpos
      simp at hpos
      rcases h6 i hpos with ⟨hna, hilt⟩
      constructor
      · intro hcv
        have : w1.execs.length = i := Option.some.inj hcv
        omega
      · intro hmem
        exact hna (hsub.subset hmem)

lemma worldInv_start (cl : CommandLine) (cwd : Option String) (w : World)
    (hinv : WorldInv w) : WorldInv (startShellExecutionW cl cwd w) := by
  obtain ⟨hs, hl, he, h5, h6⟩ := startForceEnd_facts w hinv
  unfold startShellExecutionW
  refine worldInv_startPick cl cwd (startForceEnd w) ?_ ?_ ?_ h5 ?_
  · rw [hl]
    exact he
  · rw [hs]
    exact hinv.2.1
  · rw [hs, hl]
    exact hinv.2.2.1
  · intro i hpos
    rw [hs, hl]
    exact h6 i hpos

lemma worldInv_resume (i : Nat) (w : World) (hinv : WorldInv w) :
    WorldInv (resumeDrainW i w) := by
  unfold resumeDrainW
  split
  · exact hinv
  next d hd =>
    split
    · dsimp only
      split
      next hcur =>
        obtain ⟨i1, i2, i3, i4, i5, i6⟩ := hinv
        rcases i4 d.exec hcur with ⟨hclt, hcact⟩
        have hzero : endsFor d.exec w.events = 0 := by
          by_contra hne
          have : 1 ≤ endsFor d.exec w.events := Nat.one_le_iff_ne_zero.mpr hne
          exact (i6 d.exec this).1 hcur
        refine ⟨?_, i2, i3, ?_, ?_, ?_⟩
        · intro ev hev
          rcases List.mem_append.mp hev with h | h
          · exact i1 ev h
          · simp at h
            simp [h, evBound, hclt]
        · intro c hcv
          simp at hcv
        · intro j
          rw [endsFor_append, endsFor_endEv]
          by_cases h : d.exec = j
          · subst h
            simp [hzero]
          · simp [h]
            exact i5 j
        · intro j hpos
          rw [endsFor_append, endsFor_endEv] at hpos
          refine ⟨by simp, ?_⟩
          by_cases h : d.exec = j
          · subst h
            exact hcact
          · rw [if_neg h] at hpos
            simp at hpos
            exact (i6 j hpos).2
      next hcur =>
        exact worldInv_quiet w _ [] hinv rfl rfl (by simp) (fun j => rfl) (by simp) rfl
    · exact hinv

lemma worldInv_step (w w' : World) (h : Step w w') (hinv : WorldInv w) : WorldInv w' := by
  cases h with
  | requestNew cl cwd w => exact worldInv_requestNew cl cwd w hinv
  | execCmd exe args w => exact worldInv_execCmd exe args w hinv
  | start cl cwd w => exact worldInv_start cl cwd w hinv
  | emitD d w => exact worldInv_emitData d w hinv
  | endE cl x w => exact worldInv_endShell cl x w hinv
  | resume i w => exact worldInv_resume i w hinv
  | readAt c w => exact worldInv_readAttach c w hinv
  | consume sid r w => exact worldInv_consume sid r w hinv
  | obsDone sid r w => exact worldInv_observeDone sid r w hinv
  | envC keys values t w => exact worldInv_setEnv keys values t w hinv
  | cwdC cwd w => exact worldInv_setCwd cwd w hinv
  | richC b w => exact worldInv_setRich b w hinv

lemma worldInv_init : WorldInv World.init := by
  refine ⟨?_, ?_, ?_, ?_, ?_, ?_⟩ <;> simp [World.init, SessionState.init, endsFor]

lemma worldInv_reachable (w : World) (h : Reachable w) : WorldInv w := by
  induction h with
  | refl => exact worldInv_init
  | tail hsteps hstep ih => exact worldInv_step _ _ hstep ih

/-- C5.  In every reachable interleaving of signals and resumed drain
continuations, at most one end event is ever fired for any given execution:
a late drain continuation whose execution was superseded is suppressed by the
identity comparison, so the log never holds two end events for one
execution. -/
theorem terminal_c5_single_end_event (w : World) (h : Reachable w) (i : Nat) :
    endsFor i w.events ≤ 1 :=
  (worldInv_reachable w h).2.2.2.2.1 i

/-- C5 witness: after a start, an end-of-execution signal and the resumed
drain continuation, execution `0` has exactly one end event. -/
theorem terminal_c5_single_end_event_witness :
    endsFor 0 (resumeDrainW 0 (endShellExecutionW none (some 0)
        (startShellExecutionW ⟨"ls", .low, true⟩ none World.init))).events ≤ 1 :=
  terminal_c5_single_end_event _
    (Relation.ReflTransGen.tail (Relation.ReflTransGen.tail (Relation.ReflTransGen.tail
        Relation.ReflTransGen.refl
        (Step.start ⟨"ls", .low, true⟩ none World.init))
      (Step.endE none (some 0) _))
      (Step.resume 0 _)) 0

/-- C1.  An interleaving on which the end event is observable before the
attached reader has observed termination: because `endExecution` clears
`_dataStream` before `flush()` reads it, the suspended continuation's captured
obligation is empty, so it may resume — and fire the end event — while the
reader still holds an unconsumed chunk and has not observed the end of its
sequence. -/
theorem terminal_c1_end_before_drain :
    Reachable c1w5 ∧
    c1w4.drains = [⟨0, some 0, []⟩] ∧
    c1w5.events = [Event.startEv 0, Event.endEv 0 (some 0)] ∧
    ((c1w5.streams.getD 0 default).readers.getD 0 default).observedDone = false ∧
    ((c1w5.streams.getD 0 default).readers.getD 0 default).consumed = 0 ∧
    ((c1w5.streams.getD 0 default).readers.getD 0 default).delivered = ["a"] := by
  refine ⟨?_, by decide, by decide, by decide, by decide, by decide⟩
  exact Relation.ReflTransGen.tail (Relation.ReflTransGen.tail (Relation.ReflTransGen.tail
    (Relation.ReflTransGen.tail (Relation.ReflTransGen.tail Relation.ReflTransGen.refl
      (Step.start ⟨"ls", .low, true⟩ none World.init))
      (Step.readAt 0 c1w1))
      (Step.emitD "a" c1w2))
      (Step.endE none (some 0) c1w3))
      (Step.resume 0 c1w4)

lemma lookup_none_keys (l : List (Nat × World)) (id : Nat)
    (h : l.lookup id = none) : ∀ p ∈ l, p.1 ≠ id := by
  induction l with
  | nil => simp
  | cons p t ih =>
      rw [List.lookup] at h
      by_cases hb : id = p.1
      · rw [show (id == p.1) = true from by simp [hb]] at h
        simp at h
      · rw [show (id == p.1) = false from by simp [hb]] at h
        intro q hq
        rcases List.mem_cons.mp hq with he | hm
        · subst he
          exact fun hpe => hb hpe.symm
        · exact ih h q hm

lemma map_update_of_no_key (l : List (Nat × World)) (id : Nat) (f : World → World)
    (hkeys : ∀ p ∈ l, p.1 ≠ id) :
    l.map (fun p => if p.1 = id then (p.1, f p.2) else p) = l := by
  induction l with
  | nil => rfl
  | cons p t ih =>
      rw [List.map_cons, if_neg (hkeys p (List.mem_cons_self p t)),
        ih fun q hq => hkeys q (List.mem_cons_of_mem p hq)]

lemma updateSession_of_lookup_none (d : Directory) (id : Nat) (f : World → World)
    (h : d.sessions.lookup id = none) : d.updateSession id f = d := by
  unfold Directory.updateSession
  rw [map_update_of_no_key d.sessions id f (lookup_none_keys d.sessions id h)]

/-- C9 counterexample: a `$shellEnvChange` signal for a live terminal with no
existing session is silently dropped — no session is lazily constructed, no
state changes and no event fires — contradicting the claim that every inbound
signal for a live terminal lazily constructs a session and applies the
signal. -/
theorem terminal_c9_env_no_lazy_creation :
    1 ∈ (⟨[1], [], []⟩ : Directory).live ∧
    (⟨[1], [], []⟩ : Directory).sessions.lookup 1 = none ∧
    shellEnvChangeD 1 ["A"] ["B"] true ⟨[1], [], []⟩ = ⟨[1], [], []⟩ := by
  exact ⟨by decide, rfl, rfl⟩

/-- C9 (amended).  Only the `shellIntegrationChange` and `shellExecutionStart`
signals lazily construct a session — and do so exactly when the terminal
handle resolves to a live terminal, applying the start signal to the fresh
session; for an unknown or disposed handle they are silently ignored, and the
end/data/env-change/cwd-change/rich-detection signals are silently ignored
whenever no session exists for the handle, live terminal or not. -/
theorem terminal_c9_lazy_sessions :
    (∀ id (d : Directory), id ∉ d.live → shellIntegrationChangeD id d = d) ∧
    (∀ id (d : Directory) cl cwd, id ∉ d.live → d.sessions.lookup id = none →
        shellExecutionStartD id cl cwd d = d) ∧
    (∀ id (d : Directory), id ∈ d.live → d.sessions.lookup id = none →
        (shellIntegrationChangeD id d).sessions = d.sessions ++ [(id, World.init)] ∧
        (shellIntegrationChangeD id d).dirEvents =
          d.dirEvents ++ [DirEvent.integrationChange id]) ∧
    (∀ id (d : Directory) cl cwd, id ∈ d.live → d.sessions.lookup id = none →
        (shellExecutionStartD id cl cwd d).sessions =
          d.sessions ++ [(id, startShellExecutionW cl cwd World.init)] ∧
        (shellExecutionStartD id cl cwd d).dirEvents =
          d.dirEvents ++ [DirEvent.integrationChange id]) ∧
    (∀ id (d : Directory), d.sessions.lookup id = none →
        (∀ cl x, shellExecutionEndD id cl x d = d) ∧
        (∀ s, shellExecutionDataD id s d = d) ∧
        (∀ k v t, shellEnvChangeD id k v t d = d) ∧
        (∀ cwd, cwdChangeD id cwd d = d) ∧
        (∀ b, setHasRichCommandDetectionD id b d = d)) := by
  have hchange : ∀ id (d : Directory), id ∈ d.live → d.sessions.lookup id = none →
      shellIntegrationChangeD id d =
        { d with
            sessions := d.sessions ++ [(id, World.init)]
            dirEvents := d.dirEvents ++ [DirEvent.integrationChange id] } := by
    intro id d hlive hlookup
    unfold shellIntegrationChangeD
    rw [if_pos hlive, if_neg (by simp [hlookup])]
  refine ⟨?_, ?_, ?_, ?_, ?_⟩
  · intro id d hlive
    unfold shellIntegrationChangeD
    rw [if_neg hlive]
  · intro id d cl cwd hlive hlookup
    unfold shellExecutionStartD
    rw [if_neg (by simp [hlookup])]
    have h1 : shellIntegrationChangeD id d = d := by
      unfold shellIntegrationChangeD
      rw [if_neg hlive]
    rw [h1]
    exact updateSession_of_lookup_none d id _ hlookup
  · intro id d hlive hlookup
    rw [hchange id d hlive hlookup]
    exact ⟨rfl, rfl⟩
  · intro id d cl cwd hlive hlookup
    unfold shellExecutionStartD
    rw [if_neg (by simp [hlookup]), hchange id d hlive hlookup]
    unfold Directory.updateSession
    constructor
    · show (d.sessions ++ [(id, World.init)]).map _ = _
      rw [List.map_append,
        map_update_of_no_key d.sessions id _ (lookup_none_keys d.sessions id hlookup)]
      simp
    · rfl
  · intro id d hlookup
    exact ⟨fun cl x => updateSession_of_lookup_none d id _ hlookup,
      fun s => updateSession_of_lookup_none d id _ hlookup,
      fun k v t => updateSession_of_lookup_none d id _ hlookup,
      fun cwd => updateSession_of_lookup_none d id _ hlookup,
      fun b => updateSession_of_lookup_none d id _ hlookup⟩

/-- C9 witness: a start signal for live, unseen terminal `1` creates the
session, applies the start to it, and fires the integration-change event. -/
theorem terminal_c9_lazy_sessions_witness :
    (1 ∈ (⟨[1], [], []⟩ : Directory).live ∧
      (⟨[1], [], []⟩ : Directory).sessions.lookup 1 = none) ∧
    (shellExecutionStartD 1 ⟨"ls", .low, true⟩ none ⟨[1], [], []⟩).sessions =
      (⟨[1], [], []⟩ : Directory).sessions ++
        [(1, startShellExecutionW ⟨"ls", .low, true⟩ none World.init)] ∧
    (shellExecutionStartD 1 ⟨"ls", .low, true⟩ none ⟨[1], [], []⟩).dirEvents =
      (⟨[1], [], []⟩ : Directory).dirEvents ++ [DirEvent.integrationChange 1] := by
  refine ⟨⟨by decide, rfl⟩, ?_, ?_⟩
  · exact (terminal_c9_lazy_sessions.2.2.2.1 1 ⟨[1], [], []⟩ ⟨"ls", .low, true⟩ none
      (by decide) rfl).1
  · exact (terminal_c9_lazy_sessions.2.2.2.1 1 ⟨[1], [], []⟩ ⟨"ls", .low, true⟩ none
      (by decide) rfl).2
